import Mathlib

/-!
# Verification of the Classification & Placement Engine

Shallow embedding of the classification/placement engine of the
`lost_items_desktop` repository: text normalization (`normalize_text`),
category ranking (`suggest_categories`, `suggest`), identifier
generation (`nextId`), storage-slot allocation (`assign`), the
relocation batch (`relocateItem`), and the management screen's
expiration computations (`getExpirationDate`, `getDaysUntilExpiration`,
`getExpirationStatus`).

Machine integers do not occur; timestamps are integer milliseconds.
Strings are built explicitly from character lists via `String.mk`.
-/

/-! ## Characters, digits, two-digit padding -/

/-- The character for a decimal digit `d < 10`. -/
def digitChar (d : Nat) : Char := Char.ofNat (48 + d)

/-- Decimal digit characters of `n` (most significant first), with
explicit fuel so that the definition is structural. -/
def natCharsAux : Nat → Nat → List Char
  | 0, _ => []
  | fuel + 1, n => if n < 10 then [digitChar n]
      else natCharsAux fuel (n / 10) ++ [digitChar (n % 10)]

/-- Decimal digit characters of `n`, e.g. `natChars 21 = ['2','1']`. -/
def natChars (n : Nat) : List Char := natCharsAux (n + 1) n

/-- Zero-pad a number to (at least) two digits: `pad2 3 = "03"`,
`pad2 21 = "21"`. -/
def pad2 (n : Nat) : List Char := (if n < 10 then ['0'] else []) ++ natChars n

theorem digitChar_isDigit {d : Nat} (h : d < 10) : (digitChar d).isDigit = true := by
  interval_cases d <;> decide

theorem isDigit_of_mem_natCharsAux :
    ∀ fuel n c, c ∈ natCharsAux fuel n → c.isDigit = true := by
  intro fuel
  induction fuel with
  | zero => intro n c h; simp [natCharsAux] at h
  | succ fuel ih =>
    intro n c h
    simp only [natCharsAux] at h
    split at h
    · next hn =>
      simp at h
      subst h
      exact digitChar_isDigit hn
    · rcases List.mem_append.1 h with h' | h'
      · exact ih _ _ h'
      · simp at h'
        subst h'
        exact digitChar_isDigit (Nat.mod_lt _ (by omega))

theorem isDigit_of_mem_natChars {n : Nat} {c : Char} (h : c ∈ natChars n) :
    c.isDigit = true := isDigit_of_mem_natCharsAux _ _ _ h

theorem isDigit_of_mem_pad2 {n : Nat} {c : Char} (h : c ∈ pad2 n) :
    c.isDigit = true := by
  unfold pad2 at h
  rcases List.mem_append.1 h with h' | h'
  · split at h' <;> simp at h'
    subst h'; decide
  · exact isDigit_of_mem_natChars h'

theorem dash_not_mem_pad2 (n : Nat) : '-' ∉ pad2 n := by
  intro h
  have := isDigit_of_mem_pad2 h
  simp [Char.isDigit] at this

/-! ## Dates and date strings -/

/-- A calendar date, as the registration code passes it around. -/
structure Date where
  year : Nat
  month : Nat
  day : Nat
deriving DecidableEq, Repr

/-- The `yy-mm-dd` character rendering of a date
(two-digit year, zero-padded month and day). -/
def dateChars (d : Date) : List Char :=
  pad2 (d.year % 100) ++ '-' :: (pad2 d.month ++ '-' :: pad2 d.day)

theorem count_dash_pad2 (n : Nat) : (pad2 n).count '-' = 0 :=
  List.count_eq_zero.2 (dash_not_mem_pad2 n)

theorem count_dash_dateChars (d : Date) : (dateChars d).count '-' = 2 := by
  unfold dateChars
  simp [List.count_append, List.count_cons, count_dash_pad2]

/-! ## Segment utilities on dash-separated location strings -/

/-- Number of `'-'` separators in a string. -/
def countDash (s : String) : Nat := s.data.count '-'

/-- The last dash-separated segment of a character list
(the whole list when no dash occurs). -/
def lastSeg (l : List Char) : List Char :=
  (l.reverse.takeWhile (fun c => !(c == '-'))).reverse

theorem dash_not_mem_takeWhile (l : List Char) :
    '-' ∉ l.takeWhile (fun c => !(c == '-')) := by
  intro h
  have := List.mem_takeWhile_imp h
  simp at this

theorem dash_not_mem_lastSeg (l : List Char) : '-' ∉ lastSeg l := by
  intro h
  exact dash_not_mem_takeWhile l.reverse (List.mem_reverse.1 h)

theorem takeWhile_append_stop {p : Char → Bool} {l₁ : List Char} (x : Char)
    (l₂ : List Char) (h₁ : ∀ c ∈ l₁, p c = true) (hx : p x = false) :
    (l₁ ++ x :: l₂).takeWhile p = l₁ := by
  induction l₁ with
  | nil => simp [List.takeWhile, hx]
  | cons a l ih =>
    have ha : p a = true := h₁ a (by simp)
    simp only [List.cons_append, List.takeWhile_cons, ha]
    simp [ih (fun c hc => h₁ c (by simp [hc]))]

theorem lastSeg_append {l b : List Char} (hb : '-' ∉ b) :
    lastSeg (l ++ '-' :: b) = b := by
  unfold lastSeg
  rw [List.reverse_append, List.reverse_cons, List.append_assoc, List.singleton_append]
  rw [takeWhile_append_stop '-' (l.reverse)
      (fun c hc => by
        simp only [Bool.not_eq_true', beq_eq_false_iff_ne, ne_eq]
        intro hcd; exact hb (by simpa [hcd] using List.mem_reverse.1 hc))
      (by simp)]
  simp

/-! ## Text Normalizer (`normalize_text`, backend design doc
`eac_03_architecture_and_design.md` §1.2) -/

/-- Whitespace characters recognized by the normalizer's
run-collapsing step (the ASCII fragment of the regex class used by
the source's whitespace substitution). -/
def pyWsChars : List Char := [' ', '\t', '\n', '\r', '\x0b', '\x0c']

/-- Whether `c` is a whitespace character. -/
def isPyWs (c : Char) : Bool := pyWsChars.contains c

/-- Fragment of the NFKC compatibility-decomposition table covering
the characters exercised by this development (full-width forms, the
ideographic space, the full-width tilde, a compatibility ligature);
characters outside the table decompose to themselves.  The wave dash
`'〜'` (U+301C) has no decomposition and is deliberately absent. -/
def nfkcTable : List (Char × List Char) :=
  [('～', ['~']), ('　', [' ']),
   ('Ａ', ['A']), ('Ｂ', ['B']), ('Ｚ', ['Z']),
   ('ａ', ['a']), ('ｂ', ['b']), ('ｚ', ['z']),
   ('０', ['0']), ('１', ['1']), ('９', ['9']),
   ('ﬁ', ['f', 'i'])]

/-- NFKC decomposition of a single character (identity off the table). -/
def nfkcChar (c : Char) : List Char :=
  match nfkcTable.lookup c with
  | some r => r
  | none => [c]

/-- NFKC folding of a character list. -/
def nfkcFold (l : List Char) : List Char := (l.map nfkcChar).flatten

/-- Step 1 of the source's `normalize_text`: unify the wave dash
`'〜'` into the full-width tilde `'～'` (`text.replace('〜', '～')`). -/
def waveUnify (l : List Char) : List Char :=
  l.map (fun c => if c == '〜' then '～' else c)

/-- ASCII lowercasing of a character list (`text.lower()` on the
alphabet of this development). -/
def lowerFold (l : List Char) : List Char := l.map Char.toLower

/-- Collapse every run of whitespace into a single `' '`
(`re.sub(r'\s+', ' ', text)`). -/
def collapseWs : List Char → List Char
  | [] => []
  | [c] => if isPyWs c then [' '] else [c]
  | c₁ :: c₂ :: cs =>
    if isPyWs c₁ then
      if isPyWs c₂ then collapseWs (c₂ :: cs)
      else ' ' :: collapseWs (c₂ :: cs)
    else c₁ :: collapseWs (c₂ :: cs)

/-- Remove leading and trailing whitespace (`text.strip()`). -/
def stripWs (l : List Char) : List Char :=
  ((l.dropWhile isPyWs).reverse.dropWhile isPyWs).reverse

/-- The source's `normalize_text` (design doc §1.2), mirrored step by
step: (1) unify the wave dash into the full-width tilde, (2) NFKC
folding, (3) lowercase, (4) collapse whitespace runs and strip. -/
def normalize_text (s : String) : String :=
  let t₁ := waveUnify s.data
  let t₂ := nfkcFold t₁
  let t₃ := lowerFold t₂
  let t₄ := stripWs (collapseWs t₃)
  String.mk t₄

/-- Modelled from the spec: the four-step pipeline that §4.1 of the
spec ascribes to the Text Normalizer — NFKC folding, then case
folding, then whitespace collapsing, then trimming, and nothing
else.  Used to compare the spec's description with `normalize_text`. -/
def specNormalizePipeline (s : String) : String :=
  String.mk (stripWs (collapseWs (lowerFold (nfkcFold s.data))))

/-! ## Substring search -/

/-- Whether `pat` is an initial run of `text`. -/
def startsWithSeg : List Char → List Char → Bool
  | [], _ => true
  | _ :: _, [] => false
  | p :: ps, t :: ts => p == t && startsWithSeg ps ts

/-- Whether `pat` occurs contiguously inside `text` (the `in` /
substring containment the storage rules and keyword fallback use). -/
def containsSeg (pat : List Char) : List Char → Bool
  | [] => startsWithSeg pat []
  | t :: ts => startsWithSeg pat (t :: ts) || containsSeg pat ts

theorem startsWithSeg_refl (l : List Char) : startsWithSeg l l = true := by
  induction l with
  | nil => rfl
  | cons c cs ih => simp [startsWithSeg, ih]

theorem containsSeg_refl (l : List Char) : containsSeg l l = true := by
  cases l with
  | nil => rfl
  | cons c cs => simp [containsSeg, startsWithSeg_refl]

theorem length_le_of_startsWithSeg :
    ∀ {p t : List Char}, startsWithSeg p t = true → p.length ≤ t.length := by
  intro p
  induction p with
  | nil => simp
  | cons a ps ih =>
    intro t h
    cases t with
    | nil => simp [startsWithSeg] at h
    | cons b ts =>
      simp only [startsWithSeg, Bool.and_eq_true] at h
      simpa using ih h.2

theorem eq_of_startsWithSeg_of_length :
    ∀ {p t : List Char}, startsWithSeg p t = true → p.length = t.length → p = t := by
  intro p
  induction p with
  | nil =>
    intro t _ hl
    cases t with
    | nil => rfl
    | cons b ts => simp at hl
  | cons a ps ih =>
    intro t h hl
    cases t with
    | nil => simp [startsWithSeg] at h
    | cons b ts =>
      simp only [startsWithSeg, Bool.and_eq_true, beq_iff_eq] at h
      simp only [List.length_cons, Nat.succ.injEq] at hl
      rw [h.1, ih h.2 hl]

theorem length_le_of_containsSeg :
    ∀ {p t : List Char}, containsSeg p t = true → p.length ≤ t.length := by
  intro p t
  induction t with
  | nil =>
    intro h
    simp only [containsSeg] at h
    simpa using length_le_of_startsWithSeg h
  | cons b ts ih =>
    intro h
    simp only [containsSeg, Bool.or_eq_true] at h
    rcases h with h | h
    · exact length_le_of_startsWithSeg h
    · exact Nat.le_trans (ih h) (by simp)

theorem eq_of_containsSeg_of_length :
    ∀ {p t : List Char}, containsSeg p t = true → p.length = t.length → p = t := by
  intro p t
  induction t with
  | nil =>
    intro h _
    simp only [containsSeg] at h
    have := length_le_of_startsWithSeg h
    cases p with
    | nil => rfl
    | cons a ps => simp at this
  | cons b ts ih =>
    intro h hl
    simp only [containsSeg, Bool.or_eq_true] at h
    rcases h with h | h
    · exact eq_of_startsWithSeg_of_length h hl
    · have := length_le_of_containsSeg h
      simp only [List.length_cons] at hl
      omega

/-! ## Identifier Generator

Modelled from the spec (§4.3) and the business-logic section of
`eac_04_database_schema.md`: the backend service implementing
`nextId` is not part of the repository snapshot, so the generator is
embedded from the spec's words: IDs have the form `yy-mm-dd-h-nn`,
with an atomic counter per `(facility, date, hour)` key that starts
at 1 and increments by 1 per call.  -/

/-- Key of the per-hour ID sequence counter. -/
structure IdKey where
  facilityId : Nat
  date : Date
  hour : Nat
deriving DecidableEq, Repr

/-- The mutable counter store: last issued sequence number per key. -/
def IdStore : Type := IdKey → Nat

/-- The store in which no number has been issued yet. -/
def zeroIdStore : IdStore := fun _ => 0

/-- Pointwise store update. -/
def updateIdStore (st : IdStore) (k : IdKey) (v : Nat) : IdStore :=
  fun k' => if k' = k then v else st k'

/-- The item ID `yy-mm-dd-h-nn`: acceptance date, unpadded 24-hour
acceptance hour, two-digit sequence number. -/
def mkItemId (k : IdKey) (n : Nat) : String :=
  String.mk (dateChars k.date ++ '-' :: (natChars k.hour ++ '-' :: pad2 n))

/-- Modelled from the spec: one `nextId` call — atomically increment
the counter of the key and render the ID from the new value. -/
def nextId (st : IdStore) (k : IdKey) : String × IdStore :=
  (mkItemId k (st k + 1), updateIdStore st k (st k + 1))

/-- The IDs issued by a sequence of `nextId` calls (one key per call),
in call order. -/
def runNextIds (st : IdStore) : List IdKey → List String
  | [] => []
  | k :: ks => (nextId st k).1 :: runNextIds (nextId st k).2 ks

/-- The sequence numbers issued by the same calls, taken from the same
store discipline as `nextId`. -/
def runSeqNums (st : IdStore) : List IdKey → List Nat
  | [] => []
  | k :: ks => (st k + 1) :: runSeqNums (nextId st k).2 ks

/-- Sequence numbers issued to the calls for key `k` within an
interleaved call list, in issue order. -/
def seqNumsFor (st : IdStore) (calls : List IdKey) (k : IdKey) : List Nat :=
  ((runSeqNums st calls).zip calls).filterMap
    (fun p => if p.2 = k then some p.1 else none)

theorem runNextIds_getD (dk : IdKey) :
    ∀ (calls : List IdKey) (st : IdStore) (i : Nat), i < calls.length →
      (runNextIds st calls).getD i "" =
        mkItemId (calls.getD i dk)
          (st (calls.getD i dk) + (calls.take i).count (calls.getD i dk) + 1) := by
  intro calls
  induction calls with
  | nil => intro st i h; simp at h
  | cons c cs ih =>
    intro st i h
    cases i with
    | zero => simp [runNextIds, nextId]
    | succ i =>
      have hi : i < cs.length := by simpa using h
      have hstep : runNextIds st (c :: cs)
          = (nextId st c).1 :: runNextIds (nextId st c).2 cs := rfl
      have hkey : (c :: cs).getD (i + 1) dk = cs.getD i dk := by simp
      rw [hstep, List.getD_cons_succ, hkey, ih _ i hi]
      set k := cs.getD i dk with hk
      have harg : (nextId st c).2 k + (cs.take i).count k
          = st k + ((c :: cs).take (i + 1)).count k := by
        show (if k = c then st c + 1 else st k) + (cs.take i).count k = _
        rw [List.take_succ_cons, List.count_cons]
        by_cases hc : k = c
        · simp [hc]
          omega
        · simp [hc]
          exact fun h' => hc h'.symm
      rw [harg]

/-- Claim C3: every `nextId` call issues an identifier of the form
`yy-mm-dd-h-nn` (acceptance date, 24-hour acceptance hour, two-digit
sequence number); the per-`(facility, date, hour)` sequence number is
1 on the first call for the key, increments by exactly 1 on each
subsequent call for the same key, and never resets while the key is
unchanged: the `i`-th call of an arbitrary call sequence receives
sequence number "number of earlier calls with the same key, plus 1". -/
theorem nextId_sequence_per_key (calls : List IdKey) (dk : IdKey) (i : Nat)
    (h : i < calls.length) :
    (runNextIds zeroIdStore calls).getD i "" =
      mkItemId (calls.getD i dk) ((calls.take i).count (calls.getD i dk) + 1) := by
  have := runNextIds_getD dk calls zeroIdStore i h
  simpa [zeroIdStore] using this

/-- Claim C3, witness: the third registration of facility `F1` in the
hour of 2025-06-20 14:07 is issued the item ID `"25-06-20-14-03"`. -/
theorem nextId_sequence_per_key_witness :
    (runNextIds zeroIdStore
      [⟨1, ⟨2025, 6, 20⟩, 14⟩, ⟨1, ⟨2025, 6, 20⟩, 14⟩, ⟨1, ⟨2025, 6, 20⟩, 14⟩]).getD 2 ""
      = "25-06-20-14-03" := by
  rw [nextId_sequence_per_key _ ⟨1, ⟨2025, 6, 20⟩, 14⟩ 2 (by decide)]
  decide

theorem seqNumsFor_eq (k : IdKey) :
    ∀ (calls : List IdKey) (st : IdStore),
      seqNumsFor st calls k = List.range' (st k + 1) (calls.count k) := by
  intro calls
  induction calls with
  | nil => intro st; simp [seqNumsFor, runSeqNums]
  | cons c cs ih =>
    intro st
    have hrest : ((runSeqNums (nextId st c).2 cs).zip cs).filterMap
        (fun p => if p.2 = k then some p.1 else none)
        = seqNumsFor (nextId st c).2 cs k := rfl
    show (((st c + 1) :: runSeqNums (nextId st c).2 cs).zip (c :: cs)).filterMap
        (fun p => if p.2 = k then some p.1 else none) = _
    by_cases hc : c = k
    · subst hc
      have hf : (fun p : Nat × IdKey => if p.2 = c then some p.1 else none)
          ((st c + 1), c) = some (st c + 1) := by simp
      rw [List.zip_cons_cons]
      simp only [List.filterMap_cons, hf]
      rw [hrest, ih]
      have hst : (nextId st c).2 c = st c + 1 := by
        simp [nextId, updateIdStore]
      have hcount : (c :: cs).count c = cs.count c + 1 := by
        simp [List.count_cons]
      rw [hst, hcount, List.range'_succ]
      simp
    · have hkc : ¬ k = c := fun h' => hc h'.symm
      have hf : (fun p : Nat × IdKey => if p.2 = k then some p.1 else none)
          ((st c + 1), c) = none := by simp [hc]
      rw [List.zip_cons_cons]
      simp only [List.filterMap_cons, hf]
      rw [hrest, ih]
      have hst : (nextId st c).2 k = st k := by
        simp [nextId, updateIdStore, hkc]
      have hcount : (c :: cs).count k = cs.count k := by
        simp [List.count_cons, hkc]
      rw [hst, hcount]

/-- Claim C9: for every `(facilityId, date, hour)` key and every
interleaved sequence of atomic `nextId` calls (the serialized order of
N concurrent calls), the sequence numbers issued to the calls for that
key are exactly `1, 2, …, N` in issue order: pairwise distinct, no
repeats, and no gaps. -/
theorem nextId_concurrent_distinct_no_gaps (calls : List IdKey) (k : IdKey) :
    seqNumsFor zeroIdStore calls k = List.range' 1 (calls.count k) ∧
    (seqNumsFor zeroIdStore calls k).Nodup ∧
    (∀ n, n ∈ seqNumsFor zeroIdStore calls k ↔ 1 ≤ n ∧ n ≤ calls.count k) := by
  have hmain : seqNumsFor zeroIdStore calls k = List.range' 1 (calls.count k) := by
    have := seqNumsFor_eq k calls zeroIdStore
    simpa [zeroIdStore] using this
  refine ⟨hmain, ?_, ?_⟩
  · rw [hmain]; exact List.nodup_range' _ _
  · intro n
    rw [hmain, List.mem_range'_1]
    omega

/-! ## Storage Slot Allocator

Modelled from the spec (§4.4) and the business-logic section of
`eac_04_database_schema.md`: the backend service implementing
`assign` is not part of the repository snapshot, so the allocator is
embedded from the spec's words: four rules in strict priority order
(rights claim, umbrella, food, default), with a per-`(facility, date)`
counter of default-slot assignments that rolls the box number over
every 20 items. -/

/-- One storage-assignment request. -/
structure SlotReq where
  facilityId : Nat
  date : Date
  categoryMedium : String
  featureText : String
  claims_ownership : Bool
deriving DecidableEq, Repr

/-- The per-`(facility, date)` count of default-slot assignments. -/
def DayStore : Type := Nat × Date → Nat

/-- The store of a day on which nothing has been assigned. -/
def zeroDayStore : DayStore := fun _ => 0

/-- Pointwise store update. -/
def updateDayStore (st : DayStore) (k : Nat × Date) (v : Nat) : DayStore :=
  fun k' => if k' = k then v else st k'

/-- Rule 2 guard: the chosen category resolves to "umbrella". -/
def isUmbrellaReq (r : SlotReq) : Bool := r.categoryMedium == "傘"

/-- Rule 3 guard: the normalized feature text contains the food marker. -/
def hasFoodMarker (r : SlotReq) : Bool :=
  containsSeg "食品".data (normalize_text r.featureText).data

/-- Rule 3 sub-check: the frozen marker (refrigerated is the default). -/
def hasFrozenMarker (r : SlotReq) : Bool :=
  containsSeg "冷凍".data (normalize_text r.featureText).data

/-- Whether the request falls through to the default rule (rule 4). -/
def isDefaultRouted (r : SlotReq) : Bool :=
  !r.claims_ownership && !isUmbrellaReq r && !hasFoodMarker r

/-- Rule 1 slot `yy-mm-dd-所有権主張`. -/
def ownershipLoc (d : Date) : String :=
  String.mk (dateChars d ++ '-' :: "所有権主張".data)

/-- Rule 2 slot `yy-mm-dd-umb`. -/
def umbrellaLoc (d : Date) : String :=
  String.mk (dateChars d ++ '-' :: "umb".data)

/-- Rule 3 refrigerated slot `yy-mm-dd-冷蔵庫`. -/
def fridgeLoc (d : Date) : String :=
  String.mk (dateChars d ++ '-' :: "冷蔵庫".data)

/-- Rule 3 frozen slot `yy-mm-dd-冷凍庫`. -/
def freezerLoc (d : Date) : String :=
  String.mk (dateChars d ++ '-' :: "冷凍庫".data)

/-- Rule 4 default slot `yy-mm-dd-nn` with two-digit box number. -/
def defaultLoc (d : Date) (box : Nat) : String :=
  String.mk (dateChars d ++ '-' :: pad2 box)

/-- Modelled from the spec: one `assign` call, evaluating the four
rules in strict priority order with first match winning; only the
default rule consumes (and atomically increments) the day counter,
and the `k`-th default item of a day gets box number `⌈k/20⌉`. -/
def assign (st : DayStore) (r : SlotReq) : String × DayStore :=
  if r.claims_ownership then (ownershipLoc r.date, st)
  else if isUmbrellaReq r then (umbrellaLoc r.date, st)
  else if hasFoodMarker r then
    (if hasFrozenMarker r then freezerLoc r.date else fridgeLoc r.date, st)
  else
    let c := st (r.facilityId, r.date) + 1
    (defaultLoc r.date ((c + 19) / 20), updateDayStore st (r.facilityId, r.date) c)

/-- The storage locations issued by a sequence of `assign` calls. -/
def runAssign (st : DayStore) : List SlotReq → List String
  | [] => []
  | r :: rs => (assign st r).1 :: runAssign (assign st r).2 rs

/-- The day counter store after a sequence of `assign` calls. -/
def dayStoreAfter (st : DayStore) : List SlotReq → DayStore
  | [] => st
  | r :: rs => dayStoreAfter (assign st r).2 rs

/-- Number of default-routed requests for facility `f` on date `d`. -/
def defaultCount (f : Nat) (d : Date) (rs : List SlotReq) : Nat :=
  rs.countP (fun r => isDefaultRouted r && decide (r.facilityId = f) && decide (r.date = d))

theorem assign_nondefault_store (st : DayStore) (r : SlotReq)
    (h : isDefaultRouted r = false) : (assign st r).2 = st := by
  unfold assign
  by_cases h1 : r.claims_ownership = true
  · simp [h1]
  · by_cases h2 : isUmbrellaReq r = true
    · simp [h1, h2]
    · by_cases h3 : hasFoodMarker r = true
      · simp [h1, h2, h3]
      · exfalso
        unfold isDefaultRouted at h
        simp [h1, h2, h3] at h

theorem assign_default_out (st : DayStore) (r : SlotReq)
    (h : isDefaultRouted r = true) :
    (assign st r).1
      = defaultLoc r.date ((st (r.facilityId, r.date) + 1 + 19) / 20) := by
  unfold isDefaultRouted at h
  simp only [Bool.and_eq_true, Bool.not_eq_true'] at h
  unfold assign
  simp [h.1.1, h.1.2, h.2]

theorem assign_store_eq (st : DayStore) (r : SlotReq) (f : Nat) (d : Date) :
    (assign st r).2 (f, d) = st (f, d) +
      (if isDefaultRouted r && decide (r.facilityId = f) && decide (r.date = d)
       then 1 else 0) := by
  rcases Bool.eq_false_or_eq_true (isDefaultRouted r) with hr | hr
  case inr =>
    rw [assign_nondefault_store st r hr, hr]
    simp
  case inl =>
    have hstep : (assign st r).2
        = updateDayStore st (r.facilityId, r.date) (st (r.facilityId, r.date) + 1) := by
      unfold isDefaultRouted at hr
      simp only [Bool.and_eq_true, Bool.not_eq_true'] at hr
      unfold assign
      simp [hr.1.1, hr.1.2, hr.2]
    rw [hstep, hr]
    unfold updateDayStore
    by_cases h4 : f = r.facilityId
    · by_cases h5 : d = r.date
      · subst h4
        subst h5
        simp
      · have hp : ¬ ((f, d) = (r.facilityId, r.date)) := by
          simp only [Prod.mk.injEq, not_and]
          intro _
          exact h5
        have hd : ¬ (r.date = d) := fun h' => h5 h'.symm
        simp [hp, hd]
    · have hp : ¬ ((f, d) = (r.facilityId, r.date)) := by
        simp only [Prod.mk.injEq, not_and]
        intro h'
        exact absurd h' h4
      have hf : ¬ (r.facilityId = f) := fun h' => h4 h'.symm
      simp [hp, hf]

theorem dayStoreAfter_eq (f : Nat) (d : Date) :
    ∀ (rs : List SlotReq) (st : DayStore),
      dayStoreAfter st rs (f, d) = st (f, d) + defaultCount f d rs := by
  intro rs
  induction rs with
  | nil => intro st; simp [dayStoreAfter, defaultCount]
  | cons r rs ih =>
    intro st
    show dayStoreAfter (assign st r).2 rs (f, d) = _
    rw [ih, assign_store_eq]
    unfold defaultCount
    rw [List.countP_cons]
    omega

theorem runAssign_getD (dr : SlotReq) :
    ∀ (rs : List SlotReq) (st : DayStore) (i : Nat), i < rs.length →
      isDefaultRouted (rs.getD i dr) = true →
      (runAssign st rs).getD i "" =
        defaultLoc (rs.getD i dr).date
          ((st ((rs.getD i dr).facilityId, (rs.getD i dr).date)
            + defaultCount (rs.getD i dr).facilityId (rs.getD i dr).date (rs.take i)
            + 1 + 19) / 20) := by
  intro rs
  induction rs with
  | nil => intro st i h; simp at h
  | cons r rs ih =>
    intro st i h hd
    cases i with
    | zero =>
      show (assign st r).1 = _
      rw [assign_default_out st r (by simpa using hd)]
      simp [defaultCount]
    | succ i =>
      have hi : i < rs.length := by simpa using h
      have hstep : runAssign st (r :: rs)
          = (assign st r).1 :: runAssign (assign st r).2 rs := rfl
      have hkey : (r :: rs).getD (i + 1) dr = rs.getD i dr := by simp
      have hd' : isDefaultRouted (rs.getD i dr) = true := by rwa [hkey] at hd
      rw [hstep, List.getD_cons_succ, hkey]
      rw [ih _ i hi hd']
      set q := rs.getD i dr with hq
      have harg : (assign st r).2 (q.facilityId, q.date)
            + defaultCount q.facilityId q.date (rs.take i)
          = st (q.facilityId, q.date)
            + defaultCount q.facilityId q.date ((r :: rs).take (i + 1)) := by
        rw [assign_store_eq]
        unfold defaultCount
        rw [List.take_succ_cons, List.countP_cons]
        omega
      rw [harg]

/-- Claim C1: the Storage Slot Allocator evaluates its rules in strict
priority order with first match winning: every request with
`claimsOwnership = true` is assigned the ownership slot
`yy-mm-dd-所有権主張` — regardless of whether the category is the
umbrella category or the feature text contains a food marker — and
the default-slot day counter is left untouched. -/
theorem assign_rights_claim_first (st : DayStore) (r : SlotReq)
    (h : r.claims_ownership = true) :
    (assign st r).1 = ownershipLoc r.date ∧ (assign st r).2 = st := by
  unfold assign
  simp [h]

/-- Claim C1, witness: an umbrella whose feature text carries the food
marker but whose finder claims ownership goes to the ownership slot
`"25-06-20-所有権主張"`. -/
theorem assign_rights_claim_first_witness :
    isUmbrellaReq ⟨1, ⟨2025, 6, 20⟩, "傘", "冷凍食品", true⟩ = true ∧
    hasFoodMarker ⟨1, ⟨2025, 6, 20⟩, "傘", "冷凍食品", true⟩ = true ∧
    (assign zeroDayStore ⟨1, ⟨2025, 6, 20⟩, "傘", "冷凍食品", true⟩).1
      = "25-06-20-所有権主張" :=
  ⟨by decide, by decide,
    ((assign_rights_claim_first zeroDayStore
      ⟨1, ⟨2025, 6, 20⟩, "傘", "冷凍食品", true⟩ rfl).1).trans (by decide)⟩

/-- Claim C2: for every facility and day, the `k`-th default-routed
request receives box number `⌈k/20⌉` rendered as two digits (so the
box number starts at `"01"` and advances by one exactly every 20
default-slot assignments of that `(facility, date)` key), and
requests routed to the rights-claim, umbrella or food rules never
advance the day counter: after any request sequence the counter equals
the number of default-routed requests of that key. -/
theorem assign_box_sequence (dr : SlotReq) (rs : List SlotReq) (i : Nat)
    (h : i < rs.length) (hd : isDefaultRouted (rs.getD i dr) = true) :
    (∀ f d, dayStoreAfter zeroDayStore rs (f, d) = defaultCount f d rs) ∧
    (runAssign zeroDayStore rs).getD i "" =
      defaultLoc (rs.getD i dr).date
        ((defaultCount (rs.getD i dr).facilityId (rs.getD i dr).date (rs.take i)
          + 1 + 19) / 20) := by
  constructor
  · intro f d
    have := dayStoreAfter_eq f d rs zeroDayStore
    simpa [zeroDayStore] using this
  · have := runAssign_getD dr rs zeroDayStore i h hd
    simpa [zeroDayStore] using this

/-- Claim C2, witness: with 20 default-routed items already assigned
for facility `F1` on 2025-06-20 (plus one interleaved ownership-claim
item, which must not advance the counter), the 21st default-routed
item gets storage location `"25-06-20-02"`. -/
theorem assign_box_sequence_witness :
    (runAssign zeroDayStore
      (List.replicate 20 (⟨1, ⟨2025, 6, 20⟩, "財布", "黒い", false⟩ : SlotReq)
        ++ [⟨1, ⟨2025, 6, 20⟩, "傘", "食品", true⟩,
            ⟨1, ⟨2025, 6, 20⟩, "財布", "黒い", false⟩])).getD 21 ""
      = "25-06-20-02" := by
  rw [(assign_box_sequence ⟨1, ⟨2025, 6, 20⟩, "財布", "黒い", false⟩ _ 21
    (by decide) (by decide)).2]
  decide

/-! ## Relocation Scheduler

Modelled from the spec (§4.5) and the 7-day update rule of
`eac_04_database_schema.md`: the batch job itself is not part of the
repository snapshot, so it is embedded from the spec's words: after a
7-day dwell, a non-exempt item's location `yy-mm-dd-nn` is rewritten
to `yy-mm-dd-nn-nn` (found date, box number repeated), long-term
locations being recognized by their shape alone. -/

/-- An item as the Relocation Scheduler consumes it. -/
structure Item where
  found_date : Date
  accepted_ms : Int
  storage_location : String
deriving DecidableEq, Repr

/-- Milliseconds per day. -/
def dayMs : Int := 86400000

/-- Long-term pattern `yy-mm-dd-nn-nn`: exactly four dash separators
(all initial-format locations have exactly three). -/
def isLongTermLoc (s : String) : Bool := countDash s == 4

/-- The trailing segments of the three exempt location classes. -/
def exemptSegs : List (List Char) :=
  ["所有権主張".data, "umb".data, "冷蔵庫".data, "冷凍庫".data]

/-- Whether a location is exempt from relocation (rights-claim,
umbrella, refrigerator/freezer). -/
def isExemptLoc (s : String) : Bool := exemptSegs.contains (lastSeg s.data)

/-- The box number stored in a location string (its last segment). -/
def boxOf (s : String) : String := String.mk (lastSeg s.data)

/-- The long-term location `yy-mm-dd-nn-nn` (found date, box twice). -/
def longTermLoc (d : Date) (box : String) : String :=
  String.mk (dateChars d ++ '-' :: (box.data ++ '-' :: box.data))

/-- Modelled from the spec: relocate one item as of `asOf` — a no-op
when the location already has the long-term shape, otherwise rewrite
it when the 7-day dwell has elapsed and the location is not exempt. -/
def relocateItem (asOf : Int) (it : Item) : Item :=
  if isLongTermLoc it.storage_location then it
  else if 7 * dayMs ≤ asOf - it.accepted_ms ∧ isExemptLoc it.storage_location = false then
    { it with storage_location := longTermLoc it.found_date (boxOf it.storage_location) }
  else it

/-- The batch pass over an item stream. -/
def relocateBatch (asOf : Int) (items : List Item) : List Item :=
  items.map (relocateItem asOf)

theorem countDash_longTermLoc (d : Date) (b : String) (hb : '-' ∉ b.data) :
    countDash (longTermLoc d b) = 4 := by
  show (dateChars d ++ '-' :: (b.data ++ '-' :: b.data)).count '-' = 4
  simp [List.count_append, List.count_cons, count_dash_dateChars,
    List.count_eq_zero.2 hb]

theorem isLongTermLoc_longTermLoc (d : Date) (b : String) (hb : '-' ∉ b.data) :
    isLongTermLoc (longTermLoc d b) = true := by
  unfold isLongTermLoc
  rw [countDash_longTermLoc d b hb]
  decide

/-- Claim C5: the Relocation Scheduler is idempotent — a second
application (to one item or to a whole batch) changes nothing, and an
item whose storage location already has the long-term
`yy-mm-dd-nn-nn` shape is left unchanged, recognized purely by
pattern matching on the location string. -/
theorem relocateItem_idempotent :
    (∀ (asOf : Int) (it : Item),
      relocateItem asOf (relocateItem asOf it) = relocateItem asOf it) ∧
    (∀ (asOf : Int) (it : Item),
      isLongTermLoc it.storage_location = true → relocateItem asOf it = it) ∧
    (∀ (asOf : Int) (items : List Item),
      relocateBatch asOf (relocateBatch asOf items) = relocateBatch asOf items) := by
  have hpat : ∀ (asOf : Int) (it : Item),
      isLongTermLoc it.storage_location = true → relocateItem asOf it = it := by
    intro asOf it hL
    unfold relocateItem
    simp [hL]
  have hone : ∀ (asOf : Int) (it : Item),
      relocateItem asOf (relocateItem asOf it) = relocateItem asOf it := by
    intro asOf it
    by_cases hL : isLongTermLoc it.storage_location = true
    · rw [hpat asOf it hL, hpat asOf it hL]
    · by_cases hc : 7 * dayMs ≤ asOf - it.accepted_ms ∧
          isExemptLoc it.storage_location = false
      · have hfirst : relocateItem asOf it
            = { it with storage_location :=
                longTermLoc it.found_date (boxOf it.storage_location) } := by
          unfold relocateItem
          simp [hL, hc]
        rw [hfirst]
        exact hpat asOf _
          (isLongTermLoc_longTermLoc _ _ (dash_not_mem_lastSeg _))
      · have hnoop : relocateItem asOf it = it := by
          unfold relocateItem
          simp [hL, hc]
        rw [hnoop, hnoop]
  refine ⟨hone, hpat, ?_⟩
  intro asOf items
  unfold relocateBatch
  rw [List.map_map]
  exact List.map_congr_left (fun it _ => hone asOf it)

/-- Claim C5, witness: a second relocation of a relocated item is a
no-op, and an item already in long-term format is left unchanged. -/
theorem relocateItem_idempotent_witness :
    relocateItem 604800000 (relocateItem 604800000 ⟨⟨2025, 6, 14⟩, 0, "25-06-20-01"⟩)
      = relocateItem 604800000 ⟨⟨2025, 6, 14⟩, 0, "25-06-20-01"⟩ ∧
    relocateItem 604800000 ⟨⟨2025, 6, 14⟩, 0, "25-06-14-01-01"⟩
      = ⟨⟨2025, 6, 14⟩, 0, "25-06-14-01-01"⟩ :=
  ⟨relocateItem_idempotent.1 604800000 ⟨⟨2025, 6, 14⟩, 0, "25-06-20-01"⟩,
   relocateItem_idempotent.2.1 604800000 ⟨⟨2025, 6, 14⟩, 0, "25-06-14-01-01"⟩
     (by decide)⟩

/-- Claim C4: for an item whose location is still in initial (not
long-term) format, the Relocation Scheduler rewrites the storage
location if and only if at least 7 days have elapsed between
`acceptedAt` and `asOf` and the location matches none of the three
exempt patterns; the rewritten location is `yy-mm-dd-nn-nn` built from
the item's *found* date, repeating the box segment of the stored
location — which, for a location assigned by the default rule, is
exactly the two-digit box number issued at initial registration. -/
theorem relocateItem_rewrite_iff (asOf : Int) (it : Item)
    (h : isLongTermLoc it.storage_location = false) :
    ((relocateItem asOf it).storage_location ≠ it.storage_location ↔
      (7 * dayMs ≤ asOf - it.accepted_ms ∧ isExemptLoc it.storage_location = false)) ∧
    ((7 * dayMs ≤ asOf - it.accepted_ms ∧ isExemptLoc it.storage_location = false) →
      (relocateItem asOf it).storage_location
        = longTermLoc it.found_date (boxOf it.storage_location)) ∧
    (∀ d b, it.storage_location = defaultLoc d b →
      boxOf it.storage_location = String.mk (pad2 b)) := by
  have hrw : (7 * dayMs ≤ asOf - it.accepted_ms ∧
      isExemptLoc it.storage_location = false) →
      (relocateItem asOf it).storage_location
        = longTermLoc it.found_date (boxOf it.storage_location) := by
    intro hc
    unfold relocateItem
    simp [h, hc]
  refine ⟨⟨?_, ?_⟩, hrw, ?_⟩
  · intro hne
    by_contra hc
    have : relocateItem asOf it = it := by
      unfold relocateItem
      simp [h, hc]
    exact hne (by rw [this])
  · intro hc
    rw [hrw hc]
    intro heq
    have h4 : countDash it.storage_location = 4 := by
      rw [← heq]
      exact countDash_longTermLoc _ _ (dash_not_mem_lastSeg _)
    unfold isLongTermLoc at h
    rw [h4] at h
    simp at h
  · intro d b hloc
    rw [hloc]
    unfold boxOf defaultLoc
    show String.mk (lastSeg (dateChars d ++ '-' :: pad2 b)) = _
    rw [lastSeg_append (dash_not_mem_pad2 b)]

/-- Claim C4, witness: an item found 2025-06-14, accepted at epoch
offset 0 with default slot `"25-06-20-01"`, relocated 7 days later,
moves to `"25-06-14-01-01"` (found date, box repeated), and the
rewrite happens precisely because the dwell and exemption conditions
hold. -/
theorem relocateItem_rewrite_iff_witness :
    (relocateItem 604800000 ⟨⟨2025, 6, 14⟩, 0, "25-06-20-01"⟩).storage_location
      = "25-06-14-01-01" := by
  rw [(relocateItem_rewrite_iff 604800000 ⟨⟨2025, 6, 14⟩, 0, "25-06-20-01"⟩
    (by decide)).2.1 ⟨by decide, by decide⟩]
  decide

/-! ## Management screen expiration logic
(`frontend/src/screens/ManagementScreen.tsx`) -/

/-- `getExpirationDate`: the storage deadline is `found_datetime` plus
`3 * 30 * 24 * 60 * 60 * 1000` milliseconds (90 24-hour days, not
calendar months).  Timestamps are epoch milliseconds. -/
def getExpirationDate (found : Int) : Int :=
  found + 3 * 30 * 24 * 60 * 60 * 1000

/-- JavaScript's `Math.ceil(a / b)` for integer `a` and positive
integer `b` (the float division is exact at the magnitudes the screen
handles): the ceiling of the rational quotient. -/
def jsCeilDiv (a b : Int) : Int := (a + b - 1) / b

/-- `getDaysUntilExpiration`:
`Math.ceil((expirationDate - now) / (1000*60*60*24))`. -/
def getDaysUntilExpiration (found now : Int) : Int :=
  jsCeilDiv (getExpirationDate found - now) (1000 * 60 * 60 * 24)

/-- `getExpirationStatus`: the status tag is `'expired'` (期限切れ)
when the day count is negative, `'expiring'` when it is at most 30,
and `'ok'` otherwise. -/
def getExpirationStatus (found now : Int) : String :=
  if getDaysUntilExpiration found now < 0 then "expired"
  else if getDaysUntilExpiration found now ≤ 30 then "expiring"
  else "ok"

/-- `calculateStatistics`' per-item expired test:
`expirationDate < now`. -/
def statsExpired (found now : Int) : Bool :=
  decide (getExpirationDate found < now)

/-- Claim C10, counterexample: one millisecond after the deadline the
deadline lies strictly before the current time, yet
`getExpirationStatus` does not report `'expired'` (期限切れ) — the
whole-day count is `0`, not negative — so "expired exactly when the
deadline lies strictly before the current time" is false of
`getExpirationStatus`. -/
theorem getExpirationStatus_not_strict_before :
    getExpirationDate 0 < 7776000001 ∧
    getExpirationStatus 0 7776000001 ≠ "expired" ∧
    getDaysUntilExpiration 0 7776000001 = 0 := by
  refine ⟨by decide, ?_, by decide⟩
  have h0 : getDaysUntilExpiration 0 7776000001 = 0 := by decide
  unfold getExpirationStatus
  rw [h0]
  decide

/-- Claim C10 (amended): the management screen computes the deadline
as `found_datetime` plus exactly 90 × 24h of milliseconds, and
`getExpirationStatus` classifies an item as expired (期限切れ) exactly
when the whole-day count until the deadline — the ceiling of the
millisecond difference over 86 400 000 — is negative, which holds iff
the deadline is at least one full day (86 400 000 ms) before the
current time, not merely strictly before it; the statistics tally
separately counts an item as expired when the deadline is strictly
before the current time. -/
theorem managementExpiration_amended (found now : Int) :
    getExpirationDate found = found + 7776000000 ∧
    (getExpirationStatus found now = "expired" ↔
      getDaysUntilExpiration found now < 0) ∧
    (getDaysUntilExpiration found now < 0 ↔
      getExpirationDate found + 86400000 ≤ now) ∧
    (statsExpired found now = true ↔ getExpirationDate found < now) := by
  refine ⟨?_, ?_, ?_, ?_⟩
  · unfold getExpirationDate
    norm_num
  · by_cases hd : getDaysUntilExpiration found now < 0
    · simp [getExpirationStatus, hd]
    · simp only [getExpirationStatus, hd, if_false]
      constructor
      · intro h
        by_cases h30 : getDaysUntilExpiration found now ≤ 30
        · rw [if_pos h30] at h
          exact absurd h (by decide)
        · rw [if_neg h30] at h
          exact absurd h (by decide)
      · intro h
        exact h.elim
  · unfold getDaysUntilExpiration jsCeilDiv getExpirationDate
    omega
  · unfold statsExpired
    simp

/-- Claim C8, counterexample: on the wave dash `"〜"` the source's
`normalize_text` first unifies `'〜'` into `'～'`, which NFKC then
folds to `'~'` — while the pure four-step pipeline of the claim
(NFKC, case folding, whitespace collapse, trim) leaves `"〜"`
untouched, since U+301C has no compatibility decomposition.  So
`normalize_text` does not perform *exactly* those four steps. -/
theorem normalize_text_wave_dash_counterexample :
    normalize_text "〜" = "~" ∧
    specNormalizePipeline "〜" = "〜" ∧
    normalize_text "〜" ≠ specNormalizePipeline "〜" := by
  decide

/-- Claim C8 (amended): `normalize_text` performs, in this order, a
preliminary unification of the wave dash `'〜'` into the full-width
tilde `'～'`, then compatibility-decomposition (NFKC) folding, then
case folding of Latin letters, then collapsing of every whitespace
run to a single space, then trimming — i.e. it equals the spec's
four-step pipeline pre-composed with the wave-dash unification — and
it is a pure function, so equal inputs give equal outputs. -/
theorem normalize_text_steps_amended (s : String) :
    normalize_text s
      = String.mk (stripWs (collapseWs (lowerFold (nfkcFold (waveUnify s.data))))) ∧
    normalize_text s = specNormalizePipeline (String.mk (waveUnify s.data)) ∧
    normalize_text s = normalize_text s :=
  ⟨rfl, rfl, rfl⟩

/-! ## Category ranking (`SemanticClassifier.suggest_categories`,
backend design doc §4.2 code)

The embedding function itself is an external collaborator, so the
ranking stage is embedded with the per-category similarity vector as
its input; `np.argsort` is modelled as the ascending sort by
(value, index) — the order numpy's stable small-array insertion sort
produces. -/

/-- Ascending comparison of indices by (similarity, index). -/
def argLe (sims : List ℚ) (i j : Nat) : Prop :=
  sims.getD i 0 < sims.getD j 0 ∨ (sims.getD i 0 = sims.getD j 0 ∧ i ≤ j)

instance argLeDecidable (sims : List ℚ) : DecidableRel (argLe sims) :=
  fun _ _ => inferInstanceAs (Decidable (_ ∨ _ ∧ _))

instance argLeTotal (sims : List ℚ) : IsTotal Nat (argLe sims) where
  total := by
    intro i j
    unfold argLe
    rcases lt_trichotomy (sims.getD i 0) (sims.getD j 0) with h | h | h
    · exact Or.inl (Or.inl h)
    · rcases Nat.le_total i j with hij | hij
      · exact Or.inl (Or.inr ⟨h, hij⟩)
      · exact Or.inr (Or.inr ⟨h.symm, hij⟩)
    · exact Or.inr (Or.inl h)

instance argLeTrans (sims : List ℚ) : IsTrans Nat (argLe sims) where
  trans := by
    intro a b c hab hbc
    unfold argLe at *
    rcases hab with h1 | ⟨e1, l1⟩ <;> rcases hbc with h2 | ⟨e2, l2⟩
    · exact Or.inl (h1.trans h2)
    · exact Or.inl (lt_of_lt_of_le h1 (le_of_eq e2))
    · exact Or.inl (lt_of_le_of_lt (le_of_eq e1) h2)
    · exact Or.inr ⟨e1.trans e2, l1.trans l2⟩

/-- `np.argsort(similarities)`: index list sorted ascending. -/
def argsort (sims : List ℚ) : List Nat :=
  List.insertionSort (argLe sims) (List.range sims.length)

/-- Python's `a[-n:]` slice: the last `n` elements — except that
`n = 0` yields the *whole* list (`a[-0:]` is `a[0:]`). -/
def pyTakeLast {α : Type} (n : Nat) (l : List α) : List α :=
  if n = 0 then l else l.drop (l.length - n)

/-- The ranking stage of `SemanticClassifier.suggest_categories`
(design doc §4.2): `np.argsort(similarities)[-top_n:][::-1]`, paired
with each index's similarity. -/
def suggest_categories (sims : List ℚ) (top_n : Nat) : List (Nat × ℚ) :=
  ((pyTakeLast top_n (argsort sims)).reverse).map (fun i => (i, sims.getD i 0))

/-- Claim C6, counterexample: with two categories of equal similarity,
`suggest_categories` returns the *later*-declared category first
(reversing an ascending stable argsort puts larger indices before
smaller ones on ties), so "ties broken by taxonomy declaration order,
earlier-declared first" is false; moreover `top_n = 0` returns the
full ranking (Python's `[-0:]` slice is the whole array), so "length
at most topN" also fails at `topN = 0`. -/
theorem suggest_categories_tie_counterexample :
    suggest_categories [1, 1] 2 = [(1, 1), (0, 1)] ∧
    ¬ List.Pairwise (fun a b : Nat × ℚ => b.2 < a.2 ∨ (b.2 = a.2 ∧ a.1 < b.1))
        (suggest_categories [1, 1] 2) ∧
    (suggest_categories [1, 1] 0).length = 2 := by
  refine ⟨by decide, ?_, by decide⟩
  intro hp
  have he : suggest_categories [1, 1] 2 = [(1, 1), (0, 1)] := by decide
  rw [he] at hp
  have h' := (List.pairwise_cons.1 hp).1 (0, 1) (by simp)
  rcases h' with h | ⟨_, h⟩
  · exact absurd h (by norm_num)
  · exact absurd h (by omega)

/-- Claim C6 (amended): for every similarity vector and every
`topN ≥ 1`, the result of `suggest_categories` has length at most
`topN` and is sorted in strictly descending (score, index) order:
descending by score, with ties between equal scores broken by
*reverse* taxonomy declaration order — the later-declared category
first, as produced by reversing an ascending stable argsort.
(`topN = 0` instead returns the full ranking, Python's `[-0:]` slice
being the whole array.) -/
theorem suggest_categories_ranking (sims : List ℚ) (top_n : Nat)
    (h : 1 ≤ top_n) :
    (suggest_categories sims top_n).length ≤ top_n ∧
    List.Pairwise (fun a b : Nat × ℚ => b.2 < a.2 ∨ (b.2 = a.2 ∧ b.1 < a.1))
      (suggest_categories sims top_n) := by
  have hlen : (argsort sims).length = sims.length :=
    (List.perm_insertionSort _ _).length_eq.trans (List.length_range _)
  have hslice : pyTakeLast top_n (argsort sims)
      = (argsort sims).drop ((argsort sims).length - top_n) := by
    unfold pyTakeLast
    rw [if_neg (by omega)]
  constructor
  · show (((pyTakeLast top_n (argsort sims)).reverse).map _).length ≤ top_n
    rw [List.length_map, List.length_reverse, hslice, List.length_drop]
    omega
  · have hsorted : List.Pairwise (argLe sims) (argsort sims) :=
      List.sorted_insertionSort (argLe sims) (List.range sims.length)
    have hnodup : (argsort sims).Nodup :=
      (List.perm_insertionSort _ _).nodup_iff.2 (List.nodup_range _)
    have hstrict : List.Pairwise
        (fun i j => sims.getD i 0 < sims.getD j 0 ∨
          (sims.getD i 0 = sims.getD j 0 ∧ i < j)) (argsort sims) := by
      refine (hsorted.and hnodup).imp ?_
      rintro a b ⟨hab, hne⟩
      rcases hab with hlt | ⟨heq, hle⟩
      · exact Or.inl hlt
      · exact Or.inr ⟨heq, lt_of_le_of_ne hle hne⟩
    have hdrop : List.Pairwise
        (fun i j => sims.getD i 0 < sims.getD j 0 ∨
          (sims.getD i 0 = sims.getD j 0 ∧ i < j))
        (pyTakeLast top_n (argsort sims)) := by
      rw [hslice]
      exact hstrict.sublist (List.drop_sublist _ _)
    have hrev : List.Pairwise
        (fun i j => sims.getD j 0 < sims.getD i 0 ∨
          (sims.getD j 0 = sims.getD i 0 ∧ j < i))
        ((pyTakeLast top_n (argsort sims)).reverse) :=
      List.pairwise_reverse.2 hdrop
    exact hrev.map _ (fun i j hij => by
      rcases hij with hlt | ⟨heq, hl⟩
      · exact Or.inl hlt
      · exact Or.inr ⟨heq, hl⟩)

/-- Claim C6 (amended), witness: at similarity vector `[1, 1]` with
`topN = 2` the ranking has length at most 2 and is sorted descending
with the later-declared category first on the tie. -/
theorem suggest_categories_ranking_witness :
    (suggest_categories [1, 1] 2).length ≤ 2 ∧
    List.Pairwise (fun a b : Nat × ℚ => b.2 < a.2 ∨ (b.2 = a.2 ∧ b.1 < a.1))
      (suggest_categories [1, 1] 2) :=
  suggest_categories_ranking [1, 1] 2 (by decide)

/-! ## Category Matcher with fallback (`suggest`)

Modelled from the spec (§4.2, §7): the backend classifier that
separates taxonomy availability from embedding availability and falls
back to keyword containment is not part of the repository snapshot
(the design doc's sketch has no fallback path), so it is embedded
from the spec's words: `EngineUnavailable` only on taxonomy-load
failure; with embeddings unavailable, a category scores 1.0 when one
of its normalized keywords occurs in the normalized query, ties
weighted by keyword length, then broken by declaration order. -/

/-- A taxonomy node. -/
structure Category where
  largeLabel : String
  mediumLabel : String
  keywords : List String
deriving DecidableEq, Repr

/-- The classifier: optional taxonomy, embedding availability, and
the external embedding-based scorer (an opaque collaborator scoring
the normalized query against category `i`). -/
structure Classifier where
  taxonomy : Option (List Category)
  embedReady : Bool
  embedScore : String → Nat → ℚ

/-- The engine's fatal error kind. -/
inductive EngineError where
  | EngineUnavailable
deriving DecidableEq, Repr

/-- Placeholder category for in-bounds list indexing. -/
def defaultCategory : Category := ⟨"", "", []⟩

/-- Length of the longest normalized keyword of `c` occurring inside
the normalized query `nq` (0 when none occurs). -/
def kwMatchLen (nq : String) (c : Category) : Nat :=
  (c.keywords.map (fun k =>
    if containsSeg (normalize_text k).data nq.data
    then (normalize_text k).data.length else 0)).foldr max 0

/-- Fallback score: `1.0` on any keyword containment, else `0.0`. -/
def fallbackScore (nq : String) (c : Category) : ℚ :=
  if kwMatchLen nq c > 0 then 1 else 0

/-- Ranking order on `(index, score, matchLen)` entries: descending
score, then descending match length, then ascending declaration
index (stable tie-break). -/
def rankLe (a b : Nat × ℚ × Nat) : Prop :=
  b.2.1 < a.2.1 ∨
    (a.2.1 = b.2.1 ∧ (b.2.2 < a.2.2 ∨ (a.2.2 = b.2.2 ∧ a.1 ≤ b.1)))

instance rankLeDecidable : DecidableRel rankLe :=
  fun _ _ => inferInstanceAs (Decidable (_ ∨ _ ∧ (_ ∨ _ ∧ _)))

instance rankLeTotal : IsTotal (Nat × ℚ × Nat) rankLe where
  total := by
    intro a b
    unfold rankLe
    rcases lt_trichotomy a.2.1 b.2.1 with h | h | h
    · exact Or.inr (Or.inl h)
    · rcases lt_trichotomy a.2.2 b.2.2 with h' | h' | h'
      · exact Or.inr (Or.inr ⟨h.symm, Or.inl h'⟩)
      · rcases Nat.le_total a.1 b.1 with h'' | h''
        · exact Or.inl (Or.inr ⟨h, Or.inr ⟨h', h''⟩⟩)
        · exact Or.inr (Or.inr ⟨h.symm, Or.inr ⟨h'.symm, h''⟩⟩)
      · exact Or.inl (Or.inr ⟨h, Or.inl h'⟩)
    · exact Or.inl (Or.inl h)

instance rankLeTrans : IsTrans (Nat × ℚ × Nat) rankLe where
  trans := by
    intro a b c hab hbc
    unfold rankLe at *
    rcases hab with h1 | ⟨e1, hab'⟩
    · rcases hbc with h2 | ⟨e2, _⟩
      · exact Or.inl (h2.trans h1)
      · exact Or.inl (lt_of_le_of_lt (le_of_eq e2.symm) h1)
    · rcases hbc with h2 | ⟨e2, hbc'⟩
      · exact Or.inl (lt_of_lt_of_le h2 (le_of_eq e1.symm))
      · refine Or.inr ⟨e1.trans e2, ?_⟩
        rcases hab' with m1 | ⟨me1, i1⟩
        · rcases hbc' with m2 | ⟨me2, _⟩
          · exact Or.inl (m2.trans m1)
          · exact Or.inl (lt_of_le_of_lt (le_of_eq me2.symm) m1)
        · rcases hbc' with m2 | ⟨me2, i2⟩
          · exact Or.inl (lt_of_lt_of_le m2 (le_of_eq me1.symm))
          · exact Or.inr ⟨me1.trans me2, i1.trans i2⟩

/-- The scored entry list: one `(index, score, matchLen)` per
category, embedding scores when available, keyword fallback
otherwise. -/
def scoredEntries (cl : Classifier) (cats : List Category) (nq : String) :
    List (Nat × ℚ × Nat) :=
  (List.range cats.length).map (fun i =>
    if cl.embedReady then (i, cl.embedScore nq i, 0)
    else (i, fallbackScore nq (cats.getD i defaultCategory),
      kwMatchLen nq (cats.getD i defaultCategory)))

/-- Modelled from the spec: `suggest` — `EngineUnavailable` iff the
taxonomy failed to load; otherwise normalize the query, score every
category (embedding path or keyword fallback), sort by the priority
ranking and truncate to `topN`. -/
def suggest (cl : Classifier) (query : String) (topN : Nat) :
    Except EngineError (List (Nat × ℚ)) :=
  match cl.taxonomy with
  | none => .error .EngineUnavailable
  | some cats =>
    let nq := normalize_text query
    let sorted := List.insertionSort rankLe (scoredEntries cl cats nq)
    .ok ((sorted.take topN).map (fun e => (e.1, e.2.1)))

theorem le_foldr_max {l : List Nat} {a : Nat} (h : a ∈ l) :
    a ≤ l.foldr max 0 := by
  induction l with
  | nil => simp at h
  | cons x xs ih =>
    rcases List.mem_cons.1 h with h' | h'
    · subst h'
      exact Nat.le_max_left _ _
    · exact Nat.le_trans (ih h') (Nat.le_max_right _ _)

theorem foldr_max_le {l : List Nat} {m : Nat} (h : ∀ a ∈ l, a ≤ m) :
    l.foldr max 0 ≤ m := by
  induction l with
  | nil => exact Nat.zero_le m
  | cons x xs ih =>
    exact Nat.max_le.2 ⟨h x (by simp), ih (fun a ha => h a (by simp [ha]))⟩

theorem foldr_max_mem (l : List Nat) :
    l.foldr max 0 = 0 ∨ l.foldr max 0 ∈ l := by
  induction l with
  | nil => exact Or.inl rfl
  | cons x xs ih =>
    show max x (xs.foldr max 0) = 0 ∨ max x (xs.foldr max 0) ∈ x :: xs
    rcases Nat.le_total x (xs.foldr max 0) with h | h
    · rw [Nat.max_eq_right h]
      rcases ih with h0 | hm
      · exact Or.inl h0
      · exact Or.inr (List.mem_cons_of_mem _ hm)
    · rw [Nat.max_eq_left h]
      exact Or.inr (List.mem_cons_self _ _)

theorem string_data_inj {s t : String} (h : s.data = t.data) : s = t := by
  cases s
  cases t
  exact congrArg String.mk h

theorem kwMatchLen_le (nq : String) (c : Category) :
    kwMatchLen nq c ≤ nq.data.length := by
  unfold kwMatchLen
  refine foldr_max_le ?_
  intro a ha
  rcases List.mem_map.1 ha with ⟨k, _, hk⟩
  subst hk
  split
  · next hc => exact length_le_of_containsSeg hc
  · exact Nat.zero_le _

theorem kwMatchLen_eq_of_exact {nq : String} {c : Category}
    (h : ∃ k ∈ c.keywords, normalize_text k = nq) :
    kwMatchLen nq c = nq.data.length := by
  rcases h with ⟨k, hk, hnk⟩
  refine Nat.le_antisymm (kwMatchLen_le nq c) ?_
  unfold kwMatchLen
  refine le_foldr_max (l :=
    c.keywords.map (fun k =>
      if containsSeg (normalize_text k).data nq.data
      then (normalize_text k).data.length else 0)) ?_
  refine List.mem_map.2 ⟨k, hk, ?_⟩
  rw [hnk, if_pos (containsSeg_refl nq.data)]

theorem kwMatchLen_attained {nq : String} {c : Category}
    (h : kwMatchLen nq c ≠ 0) :
    ∃ k ∈ c.keywords, containsSeg (normalize_text k).data nq.data = true ∧
      (normalize_text k).data.length = kwMatchLen nq c := by
  rcases foldr_max_mem (c.keywords.map (fun k =>
      if containsSeg (normalize_text k).data nq.data
      then (normalize_text k).data.length else 0)) with h0 | hm
  · exact absurd h0 h
  · rcases List.mem_map.1 hm with ⟨k, hk, hke⟩
    refine ⟨k, hk, ?_⟩
    by_cases hc : containsSeg (normalize_text k).data nq.data = true
    · rw [if_pos hc] at hke
      exact ⟨hc, hke⟩
    · rw [if_neg hc] at hke
      exact absurd hke.symm h

theorem insertionSort_head_of_strict_min {α : Type} (r : α → α → Prop)
    [DecidableRel r] [IsTotal α r] [IsTrans α r] (l : List α) (x : α)
    (hx : x ∈ l) (hmin : ∀ y ∈ l, y ≠ x → ¬ r y x) :
    ∃ t, List.insertionSort r l = x :: t := by
  have hperm : List.Perm (List.insertionSort r l) l := List.perm_insertionSort r l
  have hxs : x ∈ List.insertionSort r l := hperm.mem_iff.2 hx
  cases hs : List.insertionSort r l with
  | nil =>
    rw [hs] at hxs
    simp at hxs
  | cons hd t =>
    have hh : hd ∈ l := hperm.subset (by rw [hs]; exact List.mem_cons_self _ _)
    by_cases hhx : hd = x
    · exact ⟨t, by rw [hhx]⟩
    · exfalso
      have hxt : x ∈ t := by
        rw [hs] at hxs
        rcases List.mem_cons.1 hxs with h' | h'
        · exact absurd h'.symm hhx
        · exact h'
      have hsort : List.Pairwise r (List.insertionSort r l) :=
        List.sorted_insertionSort r l
      rw [hs] at hsort
      exact hmin hd hh hhx ((List.pairwise_cons.1 hsort).1 x hxt)

/-- Claim C7: `suggest` fails with `EngineUnavailable` exactly when
the taxonomy failed to load — never because the embedding model is
unavailable — and, with embeddings unavailable, a query whose
normalized text exactly equals one of a category's normalized
keywords yields a non-empty ranking with that category first at
score `1.0` (provided the normalized query is non-empty and no
earlier-declared category also carries that exact keyword, which
would win the declaration-order tie-break). -/
theorem suggest_engine_error_and_fallback (cl : Classifier) (query : String)
    (topN : Nat) (cats : List Category) (i : Nat)
    (htax : cl.taxonomy = some cats)
    (hemb : cl.embedReady = false)
    (htop : 1 ≤ topN)
    (hi : i < cats.length)
    (hnq : (normalize_text query).data ≠ [])
    (hkw : ∃ k ∈ (cats.getD i defaultCategory).keywords,
      normalize_text k = normalize_text query)
    (hfirst : ∀ j, j < i →
      ¬ ∃ k ∈ (cats.getD j defaultCategory).keywords,
        normalize_text k = normalize_text query) :
    (∀ (cl' : Classifier) (q' : String) (n' : Nat),
      (∃ e, suggest cl' q' n' = Except.error e) ↔ cl'.taxonomy = none) ∧
    ∃ rest, suggest cl query topN = Except.ok ((i, (1 : ℚ)) :: rest) := by
  constructor
  · intro cl' q' n'
    constructor
    · rintro ⟨e, he⟩
      cases htax' : cl'.taxonomy with
      | none => rfl
      | some cats' =>
        rw [suggest, htax'] at he
        simp at he
    · intro hn
      exact ⟨EngineError.EngineUnavailable, by rw [suggest, hn]⟩
  · set nq := normalize_text query with hnqdef
    have hlen0 : nq.data.length ≠ 0 := fun h => hnq (List.length_eq_zero.1 h)
    have hmi : kwMatchLen nq (cats.getD i defaultCategory) = nq.data.length :=
      kwMatchLen_eq_of_exact hkw
    have hsi : fallbackScore nq (cats.getD i defaultCategory) = 1 := by
      unfold fallbackScore
      rw [if_pos (by omega)]
    have hentry : ∀ e ∈ scoredEntries cl cats nq, ∃ j, j < cats.length ∧
        e = (j, fallbackScore nq (cats.getD j defaultCategory),
          kwMatchLen nq (cats.getD j defaultCategory)) := by
      intro e he
      rcases List.mem_map.1 he with ⟨j, hj, hje⟩
      exact ⟨j, List.mem_range.1 hj, by rw [← hje, hemb]; simp⟩
    have hxmem : ((i, (1 : ℚ), nq.data.length) : Nat × ℚ × Nat)
        ∈ scoredEntries cl cats nq := by
      refine List.mem_map.2 ⟨i, List.mem_range.2 hi, ?_⟩
      rw [hemb]
      simp
      exact ⟨by simpa using hsi, by simpa using hmi⟩
    have hmin : ∀ y ∈ scoredEntries cl cats nq,
        y ≠ (i, (1 : ℚ), nq.data.length) → ¬ rankLe y (i, (1 : ℚ), nq.data.length) := by
      intro y hy hne hr
      rcases hentry y hy with ⟨j, hj, hje⟩
      subst hje
      unfold rankLe at hr
      dsimp only at hr
      have hji : j ≠ i := by
        intro h
        apply hne
        rw [h, hsi, hmi]
      have hsle : fallbackScore nq (cats.getD j defaultCategory) = 1 ∨
          fallbackScore nq (cats.getD j defaultCategory) = 0 := by
        unfold fallbackScore
        split
        · exact Or.inl rfl
        · exact Or.inr rfl
      rcases hr with hlt | ⟨heq, hr'⟩
      · rcases hsle with h1 | h1 <;> rw [h1] at hlt <;> norm_num at hlt
      · have hs1 : fallbackScore nq (cats.getD j defaultCategory) = 1 := by
          rcases hsle with h1 | h1
          · exact h1
          · rw [h1] at heq
            norm_num at heq
        have hm0 : kwMatchLen nq (cats.getD j defaultCategory) ≠ 0 := by
          intro h0
          unfold fallbackScore at hs1
          rw [if_neg (by omega)] at hs1
          norm_num at hs1
        rcases hr' with hml | ⟨hme, hji'⟩
        · exact absurd (lt_of_lt_of_le hml (kwMatchLen_le nq _))
            (lt_irrefl _)
        · have hjlt : j < i := lt_of_le_of_ne hji' hji
          rcases kwMatchLen_attained hm0 with ⟨k, hk, hkc, hkl⟩
          have hkeq : normalize_text k = nq :=
            string_data_inj (eq_of_containsSeg_of_length hkc (by rw [hkl, hme]))
          exact hfirst j hjlt ⟨k, hk, hkeq⟩
    rcases insertionSort_head_of_strict_min rankLe (scoredEntries cl cats nq)
      (i, (1 : ℚ), nq.data.length) hxmem hmin with ⟨t, ht⟩
    rcases Nat.exists_eq_add_of_le htop with ⟨n, hn⟩
    refine ⟨(t.take n).map (fun e => (e.1, e.2.1)), ?_⟩
    rw [suggest, htax]
    simp only [← hnqdef, ht, hn]
    rw [Nat.add_comm 1 n, List.take_succ_cons]
    simp

/-- Claim C7, witness: with the taxonomy loaded, embeddings disabled
and a query equal to the second category's keyword `"弁当"`, `suggest`
succeeds and ranks that category first with score `1.0`. -/
theorem suggest_engine_error_and_fallback_witness :
    ∃ rest, suggest
      ⟨some [⟨"生活用品", "傘", ["傘", "かさ"]⟩, ⟨"食料品", "食品", ["弁当"]⟩],
        false, fun _ _ => 0⟩ "弁当" 3 = Except.ok ((1, (1 : ℚ)) :: rest) :=
  (suggest_engine_error_and_fallback _ "弁当" 3 _ 1 rfl rfl (by decide)
    (by decide) (by decide) (by decide) (by decide)).2
